import Mathlib

/-!
Verification of the `forte` pitch-class-set library.

Shallow embedding of the Rust sources:
- `src/pitch_class.rs`   : the `PitchClass` enum and its integer conversions
- `src/pitch_class_set.rs`: the `PitchClassSet` wrapper
- `src/utils.rs`          : pairwise ascending intervals
- `src/transposition.rs`  : `transposition::by`
- `src/inversion.rs`      : `inversion::by`
- `src/normal_form.rs`    : `normal_form::from` and its helpers
- `src/prime_form.rs`     : `prime_form::from`

Rust functions that can panic (`unwrap`, out-of-bounds indexing) are embedded
as `Option`-returning functions where `none` models the panic.
Machine integers are embedded as `Nat`/`Int`.  Width matters in two places:
`inversion::by`, whose `level as i32` cast is modelled by `toI32` and whose
`i32` subtraction is modelled with the two's-complement wrap `wrapI32`
(release-mode semantics; a debug build would panic on overflow), and the
`u32` addition in `transposition::by`, modelled by an explicit
`% 4294967296`.
-/

namespace Forte

/-- The 31-variant `PitchClass` enum, in Rust declaration order.  The derived
Rust `Ord` instance orders variants by this declaration order; `declIdx`
below exposes that order. -/
inductive PitchClass where
  | Cf | C | Cs | Css
  | Dff | Df | D | Ds | Dss
  | Eff | Ef | E | Es
  | Ff | F | Fs | Fss
  | Gff | Gf | G | Gs | Gss
  | Aff | Af | A | As | Ass
  | Bff | Bf | B | Bs
deriving DecidableEq, Repr, Fintype

/-- Position of a variant in the Rust enum declaration; the derived Rust
`Ord`/`PartialOrd` on `PitchClass` compares these positions. -/
def declIdx : PitchClass → Nat
  | .Cf => 0 | .C => 1 | .Cs => 2 | .Css => 3
  | .Dff => 4 | .Df => 5 | .D => 6 | .Ds => 7 | .Dss => 8
  | .Eff => 9 | .Ef => 10 | .E => 11 | .Es => 12
  | .Ff => 13 | .F => 14 | .Fs => 15 | .Fss => 16
  | .Gff => 17 | .Gf => 18 | .G => 19 | .Gs => 20 | .Gss => 21
  | .Aff => 22 | .Af => 23 | .A => 24 | .As => 25 | .Ass => 26
  | .Bff => 27 | .Bf => 28 | .B => 29 | .Bs => 30

/-- `impl From<PitchClass> for u32` (also `PitchClass::to_u32`). -/
def toU32 : PitchClass → Nat
  | .Bs | .C | .Dff => 0
  | .Cs | .Df => 1
  | .Css | .D | .Eff => 2
  | .Ds | .Ef => 3
  | .Dss | .E | .Ff => 4
  | .Es | .F | .Gff => 5
  | .Fs | .Gf => 6
  | .Fss | .G | .Aff => 7
  | .Gs | .Af => 8
  | .Gss | .A | .Bff => 9
  | .As | .Bf => 10
  | .Ass | .B | .Cf => 11

/-- `impl From<u32> for PitchClass`: match on `value.rem_euclid(12)`.  The
Rust match arms are `0..=11` plus an unreachable panicking wildcard (a `u32`
`rem_euclid(12)` is always `< 12`), so the final arm here covers residue 11. -/
def fromU32 (value : Nat) : PitchClass :=
  if value % 12 = 0 then .C
  else if value % 12 = 1 then .Cs
  else if value % 12 = 2 then .D
  else if value % 12 = 3 then .Ef
  else if value % 12 = 4 then .E
  else if value % 12 = 5 then .F
  else if value % 12 = 6 then .Fs
  else if value % 12 = 7 then .G
  else if value % 12 = 8 then .Af
  else if value % 12 = 9 then .A
  else if value % 12 = 10 then .Bf
  else .B

/-- The value of a `u32` reinterpreted by Rust's `as i32` cast. -/
def toI32 (n : Nat) : Int :=
  if n < 2147483648 then (n : Int) else (n : Int) - 4294967296

/-- Wrap an unbounded integer into the two's-complement `i32` range,
modelling the release-mode wrap of an overflowing `i32` operation. -/
def wrapI32 (z : Int) : Int :=
  (z + 2147483648) % 4294967296 - 2147483648

/-- The derived Rust `Ord` on `PitchClass`: declaration order. -/
def pcLe (a b : PitchClass) : Prop := declIdx a ≤ declIdx b

instance : DecidableRel pcLe :=
  fun a b => inferInstanceAs (Decidable (declIdx a ≤ declIdx b))

instance : IsTotal PitchClass pcLe := ⟨fun a b => Nat.le_total (declIdx a) (declIdx b)⟩

instance : IsTrans PitchClass pcLe := ⟨fun _ _ _ => Nat.le_trans⟩

/-- `declIdx` is injective (each variant has its own declaration slot). -/
lemma declIdx_inj : ∀ a b : PitchClass, declIdx a = declIdx b → a = b := by decide

instance : IsAntisymm PitchClass pcLe :=
  ⟨fun a b h1 h2 => declIdx_inj a b (Nat.le_antisymm h1 h2)⟩

/-- `struct PitchClassSet { set: Vec<PitchClass> }`. -/
structure PitchClassSet where
  set : List PitchClass
deriving DecidableEq, Repr

/-- `utils::get_interval_between`. -/
def get_interval_between (a b : Nat) : Nat :=
  if a ≤ b then b - a else (b + 12) - a

/-- `utils::intervals`: `set.windows(2).map(find_interval)`. -/
def intervals : List PitchClass → List Nat
  | a :: b :: rest => get_interval_between (toU32 a) (toU32 b) :: intervals (b :: rest)
  | _ => []

/-- `transposition::by`: each element becomes
`((pc.to_u32() + level).rem_euclid(12)).into()`; the `u32` addition wraps
modulo 2^32. -/
def transposition_by (s : PitchClassSet) (level : Nat) : PitchClassSet :=
  ⟨s.set.map fun pc => fromU32 ((toU32 pc + level) % 4294967296 % 12)⟩

/-- `inversion::by`: each element becomes
`((level as i32 - pc.to_u32() as i32).rem_euclid(12) as u32).into()` and the
mapped sequence is reversed (`.rev()`).  The `i32` subtraction wraps via
`wrapI32` when it overflows (for levels in `[2^31, 2^31 + 11]` with a large
enough pitch value). -/
def inversion_by (s : PitchClassSet) (level : Nat) : PitchClassSet :=
  ⟨(s.set.map fun pc =>
      fromU32 ((wrapI32 (toI32 level - (toU32 pc : Int)) % 12).toNat)).reverse⟩

/-- `inversion::by_pair`: derives the level from the pair and delegates. -/
def inversion_by_pair (s : PitchClassSet) (a b : PitchClass) : PitchClassSet :=
  inversion_by s ((toU32 a + toU32 b) % 12)

/-- `struct Internal { set, intervals, total_span }` from `normal_form.rs`.
The derived Rust `Ord` compares the fields in declaration order. -/
structure Internal where
  set : PitchClassSet
  intervals : List Nat
  total_span : Nat
deriving DecidableEq, Repr

/-- `normal_form::total_span`: `first().unwrap()` / `last().unwrap()`;
`none` models the panic on an empty set. -/
def total_span (s : PitchClassSet) : Option Nat :=
  match s.set.head?, s.set.getLast? with
  | some a, some b => some (get_interval_between (toU32 a) (toU32 b))
  | _, _ => none

/-- `Internal::new`. -/
def Internal.new (s : PitchClassSet) : Option Internal :=
  (Forte.total_span s).map fun ts =>
    { set := s, intervals := Forte.intervals s.set, total_span := ts }

/-- `<[T]>::rotate_right(k)` for `k ≤ len`: the last `k` elements move to
the front. -/
def rotateRight (l : List PitchClass) (k : Nat) : List PitchClass :=
  l.drop (l.length - k) ++ l.take (l.length - k)

/-- `normal_form::create_rotation`. -/
def create_rotation (set : List PitchClass) (rotation : Nat) : PitchClassSet :=
  ⟨rotateRight set rotation⟩

/-- Running cumulative sum with accumulator, as in the Rust
`iter().scan(0, |acc, x| { *acc += x; Some(*acc) })`. -/
def scanAux (acc : Nat) : List Nat → List Nat
  | [] => []
  | x :: rest => (acc + x) :: scanAux (acc + x) rest

/-- `normal_form::create_interval_scan`. -/
def create_interval_scan (ivs : List Nat) : List Nat := scanAux 0 ivs

/-- `normal_form::set_with_interval_scan`. -/
def set_with_interval_scan (s : Internal) (is_reversed : Bool) :
    List Nat × Bool × Internal :=
  let ivs := if is_reversed then s.intervals.reverse else s.intervals
  (create_interval_scan ivs, is_reversed, s)

/-- Lexicographic comparison of lists under an element comparison, matching
the derived Rust `Ord` for `Vec<_>`. -/
def cmpList (cmp : α → α → Ordering) : List α → List α → Ordering
  | [], [] => .eq
  | [], _ :: _ => .lt
  | _ :: _, [] => .gt
  | a :: as, b :: bs =>
    match cmp a b with
    | .eq => cmpList cmp as bs
    | o => o

/-- Rust `Ord` for `bool`: `false < true`. -/
def cmpBool : Bool → Bool → Ordering
  | false, true => .lt
  | true, false => .gt
  | _, _ => .eq

/-- Derived Rust `Ord` for `PitchClass`: declaration order. -/
def cmpPc (a b : PitchClass) : Ordering := compare (declIdx a) (declIdx b)

/-- Derived Rust `Ord` for `PitchClassSet`: lexicographic on the vector. -/
def cmpPcs (a b : PitchClassSet) : Ordering := cmpList cmpPc a.set b.set

/-- Derived Rust `Ord` for `Internal`: fields in declaration order. -/
def cmpInternal (a b : Internal) : Ordering :=
  (cmpPcs a.set b.set).then
    ((cmpList compare a.intervals b.intervals).then
      (compare a.total_span b.total_span))

/-- Derived Rust `Ord` for the `(Vec<u32>, bool, &Internal)` triples sorted
by `find_best_packed_candidate`. -/
def cmpTriple (a b : List Nat × Bool × Internal) : Ordering :=
  (cmpList compare a.1 b.1).then
    ((cmpBool a.2.1 b.2.1).then (cmpInternal a.2.2 b.2.2))

/-- Non-strict order induced by `cmpTriple`; `Vec::sort` sorts ascending
with respect to it. -/
def tripleLe (a b : List Nat × Bool × Internal) : Prop :=
  cmpTriple a b ≠ Ordering.gt

instance : DecidableRel tripleLe :=
  fun a b => inferInstanceAs (Decidable (cmpTriple a b ≠ Ordering.gt))

/-- The `all_interval_possibilities` vector: for each candidate, push its
forward scan then its reversed scan. -/
def all_interval_possibilities : List Internal → List (List Nat × Bool × Internal)
  | [] => []
  | s :: rest =>
    set_with_interval_scan s false :: set_with_interval_scan s true ::
      all_interval_possibilities rest

/-- `normal_form::find_best_packed_candidate`: sort the triples and take
index 0 (`none` models the panic on an empty candidate list). -/
def find_best_packed_candidate (sets : List Internal) : Option Internal :=
  match (List.insertionSort tripleLe (all_interval_possibilities sets)).head? with
  | none => none
  | some t => some t.2.2

/-- `normal_form::find_normal_form`. -/
def find_normal_form (candidates : List Internal) : Option Internal :=
  if candidates.length = 1 then candidates.head?
  else find_best_packed_candidate candidates

/-- `Iterator::min` over `u32` values. -/
def listMinAux (a : Nat) : List Nat → Nat
  | [] => a
  | b :: rest => listMinAux (if b < a then b else a) rest

/-- `Iterator::min().unwrap()` modelled with `none` for the panic on an
empty iterator. -/
def listMin : List Nat → Option Nat
  | [] => none
  | a :: rest => some (listMinAux a rest)

/-- The `n` rotations generated in `normal_form::from`: indices `1..=n`. -/
def rotationsOf (sorted : List PitchClass) : List PitchClassSet :=
  (List.range' 1 sorted.length).map (create_rotation sorted)

/-- `Internal::new` mapped over a list of rotations, propagating a panic. -/
def internalsOf : List PitchClassSet → Option (List Internal)
  | [] => some []
  | s :: rest =>
    match Internal.new s, internalsOf rest with
    | some i, some is => some (i :: is)
    | _, _ => none

/-- The `rotations` vector of `normal_form::from`. -/
def rotationInternals (sorted : List PitchClass) : Option (List Internal) :=
  internalsOf (rotationsOf sorted)

/-- Body of `normal_form::from` after the initial sort: build the rotation
internals, take the minimum span (panics on an empty set), filter to the
tied candidates and resolve. -/
def nfSorted (sorted : List PitchClass) : Option PitchClassSet :=
  match rotationInternals sorted with
  | none => none
  | some rotations =>
    match listMin (rotations.map Internal.total_span) with
    | none => none
    | some min_span =>
      match find_normal_form (rotations.filter fun r => r.total_span == min_span) with
      | none => none
      | some best => some best.set

/-- `normal_form::from`: sort by the derived `Ord` (declaration order),
then reduce. -/
def normalForm (s : PitchClassSet) : Option PitchClassSet :=
  nfSorted (List.insertionSort pcLe s.set)

/-- `std::cmp::min` on `Vec<u32>` (lexicographic; first argument wins ties). -/
def minVec (a b : List Nat) : List Nat :=
  if cmpList compare a b = Ordering.gt then b else a

/-- `prime_form::from`. -/
def primeForm (s : PitchClassSet) : Option (List Nat) :=
  match normalForm s with
  | none => none
  | some nf =>
    let ivs := intervals nf.set
    let left_packed := minVec ivs ivs.reverse
    some (create_interval_scan (0 :: left_packed))

/-- The 12 canonical spellings produced by `From<u32> for PitchClass`. -/
def canonicalSpellings : List PitchClass :=
  [.C, .Cs, .D, .Ef, .E, .F, .Fs, .G, .Af, .A, .Bf, .B]

/-- Ascending-by-pitch-integer order on `PitchClass` (what the spec claims
the normal-form pre-sort uses). -/
def valueLe (a b : PitchClass) : Prop := toU32 a ≤ toU32 b

instance : DecidableRel valueLe :=
  fun a b => inferInstanceAs (Decidable (toU32 a ≤ toU32 b))

/-- The input sorted ascending by pitch-integer value, per the spec's words. -/
def valueSorted (l : List PitchClass) : List PitchClass :=
  List.insertionSort valueLe l

/-- Inversion as described by the claim: the element at output position `i`
is the pitch class of `(level - x) mod 12` (floored modulo) where `x` is the
integer of the input element at mirrored position `len - 1 - i`. -/
def invSpec (s : PitchClassSet) (level : Nat) : PitchClassSet :=
  ⟨(List.range s.set.length).map fun i =>
      fromU32 ((((level : Int) -
        (toU32 (s.set.getD (s.set.length - 1 - i) PitchClass.C) : Int)) % 12).toNat)⟩

/-- Tie-break triples as described by the claim: for each tied candidate,
the forward-scan triple and the reversed-scan triple, collected across all
candidates. -/
def claimTriples (cands : List Internal) : List (List Nat × Bool × Internal) :=
  cands.foldr
    (fun c acc =>
      set_with_interval_scan c false :: set_with_interval_scan c true :: acc)
    []

/-- Tie-break selection as described by the claim: sort all triples
lexicographically ascending and take the candidate of the first triple. -/
def claimSelect (cands : List Internal) : Option Internal :=
  (List.insertionSort tripleLe (claimTriples cands)).head?.map fun t => t.2.2

/-- The rotation internals of the tritone `{C, Fs}`: a concrete input on
which two rotations tie for the minimal span, used as a tie-break witness. -/
def tieRots : List Internal :=
  [⟨⟨[PitchClass.Fs, PitchClass.C]⟩, [6], 6⟩,
   ⟨⟨[PitchClass.C, PitchClass.Fs]⟩, [6], 6⟩]

/-! ## Basic facts about the encoding -/

lemma toU32_lt (pc : PitchClass) : toU32 pc < 12 := by
  cases pc <;> decide

lemma toU32_fromU32 (n : Nat) : toU32 (fromU32 n) = n % 12 := by
  have h : n % 12 = 0 ∨ n % 12 = 1 ∨ n % 12 = 2 ∨ n % 12 = 3 ∨ n % 12 = 4 ∨
      n % 12 = 5 ∨ n % 12 = 6 ∨ n % 12 = 7 ∨ n % 12 = 8 ∨ n % 12 = 9 ∨
      n % 12 = 10 ∨ n % 12 = 11 := by omega
  rcases h with h|h|h|h|h|h|h|h|h|h|h|h <;> simp [fromU32, h, toU32]

lemma fromU32_mem_canonical (n : Nat) : fromU32 n ∈ canonicalSpellings := by
  have h : n % 12 = 0 ∨ n % 12 = 1 ∨ n % 12 = 2 ∨ n % 12 = 3 ∨ n % 12 = 4 ∨
      n % 12 = 5 ∨ n % 12 = 6 ∨ n % 12 = 7 ∨ n % 12 = 8 ∨ n % 12 = 9 ∨
      n % 12 = 10 ∨ n % 12 = 11 := by omega
  rcases h with h|h|h|h|h|h|h|h|h|h|h|h <;> simp [fromU32, h, canonicalSpellings]

lemma fromU32_mod (n : Nat) : fromU32 (n % 12) = fromU32 n := by
  unfold fromU32
  rw [Nat.mod_mod_of_dvd n dvd_rfl]

/-! ## Rotation facts -/

lemma rotateRight_length (l : List PitchClass) (k : Nat) :
    (rotateRight l k).length = l.length := by
  simp [rotateRight]

lemma rotateRight_perm (l : List PitchClass) (k : Nat) : (rotateRight l k).Perm l := by
  unfold rotateRight
  exact List.perm_append_comm.trans (by rw [List.take_append_drop])

lemma rotateRight_ne_nil {l : List PitchClass} (h : l ≠ []) (k : Nat) :
    rotateRight l k ≠ [] := by
  apply List.ne_nil_of_length_pos
  rw [rotateRight_length]
  exact List.length_pos.2 h

lemma mem_rotationsOf_perm {t : PitchClassSet} {sorted : List PitchClass}
    (h : t ∈ rotationsOf sorted) : t.set.Perm sorted := by
  obtain ⟨i, _, rfl⟩ := List.mem_map.1 h
  exact rotateRight_perm sorted i

lemma length_rotationsOf (sorted : List PitchClass) :
    (rotationsOf sorted).length = sorted.length := by
  simp [rotationsOf]

/-! ## Construction of the rotation internals -/

lemma getLast?_cons_some (a : PitchClass) (r : List PitchClass) :
    ∃ b, (a :: r).getLast? = some b := by
  induction r generalizing a with
  | nil => exact ⟨a, rfl⟩
  | cons c r ih =>
    obtain ⟨b, hb⟩ := ih c
    exact ⟨b, by rw [List.getLast?_cons_cons, hb]⟩

lemma Internal.new_of_ne_nil {s : PitchClassSet} (h : s.set ≠ []) :
    ∃ i, Internal.new s = some i ∧ i.set = s := by
  obtain ⟨l⟩ := s
  match l, h with
  | a :: r, _ =>
    obtain ⟨b, hb⟩ := getLast?_cons_some a r
    refine ⟨⟨⟨a :: r⟩, Forte.intervals (a :: r),
      get_interval_between (toU32 a) (toU32 b)⟩, ?_, rfl⟩
    have ht : Forte.total_span ⟨a :: r⟩ =
        some (get_interval_between (toU32 a) (toU32 b)) := by
      unfold Forte.total_span
      rw [List.head?_cons, hb]
    simp [Internal.new, ht]

lemma internalsOf_of_ne_nil :
    ∀ (L : List PitchClassSet), (∀ x ∈ L, x.set ≠ []) →
      ∃ is, internalsOf L = some is ∧ is.map Internal.set = L
  | [], _ => ⟨[], rfl, rfl⟩
  | s :: rest, h => by
    obtain ⟨i, hi, hset⟩ := Internal.new_of_ne_nil (h s (List.mem_cons_self s rest))
    obtain ⟨is, his, hmap⟩ :=
      internalsOf_of_ne_nil rest (fun x hx => h x (List.mem_cons_of_mem s hx))
    refine ⟨i :: is, ?_, ?_⟩
    · simp [internalsOf, hi, his]
    · simp [hmap, hset]

/-! ## Minimum and tie-break selection -/

lemma listMinAux_mem (a : Nat) (l : List Nat) :
    listMinAux a l = a ∨ listMinAux a l ∈ l := by
  induction l generalizing a with
  | nil => exact Or.inl rfl
  | cons b r ih =>
    rcases ih (if b < a then b else a) with h | h
    · rw [listMinAux, h]
      split_ifs
      · exact Or.inr (List.mem_cons_self b r)
      · exact Or.inl rfl
    · exact Or.inr (List.mem_cons_of_mem b (by rw [listMinAux]; exact h))

lemma listMin_mem {l : List Nat} {m : Nat} (h : listMin l = some m) : m ∈ l := by
  match l, h with
  | a :: rest, h =>
    have hm : listMinAux a rest = m := by
      simpa [listMin] using h
    rcases listMinAux_mem a rest with h' | h'
    · rw [← hm, h']; exact List.mem_cons_self a rest
    · exact List.mem_cons_of_mem a (hm ▸ h')

lemma mem_all_interval_possibilities {t : List Nat × Bool × Internal} :
    ∀ {L : List Internal}, t ∈ all_interval_possibilities L → t.2.2 ∈ L
  | [], h => by simp [all_interval_possibilities] at h
  | c :: r, h => by
    rw [all_interval_possibilities] at h
    simp only [List.mem_cons] at h
    rcases h with h | h | h
    · subst h; exact List.mem_cons_self c r
    · subst h; exact List.mem_cons_self c r
    · exact List.mem_cons_of_mem c (mem_all_interval_possibilities h)

lemma find_best_packed_candidate_mem {cands : List Internal} (h : cands ≠ []) :
    ∃ best, find_best_packed_candidate cands = some best ∧ best ∈ cands := by
  have hposs : all_interval_possibilities cands ≠ [] := by
    match cands, h with
    | c :: r, _ => simp [all_interval_possibilities]
  have hperm := List.perm_insertionSort tripleLe (all_interval_possibilities cands)
  match hsort : List.insertionSort tripleLe (all_interval_possibilities cands) with
  | [] =>
    rw [hsort] at hperm
    exact absurd hperm.symm.eq_nil hposs
  | t :: rest =>
    refine ⟨t.2.2, ?_, ?_⟩
    · rw [find_best_packed_candidate, hsort]
      rfl
    · apply mem_all_interval_possibilities
      rw [hsort] at hperm
      exact hperm.mem_iff.1 (List.mem_cons_self t rest)

lemma find_normal_form_mem {cands : List Internal} (h : cands ≠ []) :
    ∃ best, find_normal_form cands = some best ∧ best ∈ cands := by
  unfold find_normal_form
  split_ifs with hlen
  · match cands, h with
    | c :: rest, _ => exact ⟨c, rfl, List.mem_cons_self c rest⟩
  · exact find_best_packed_candidate_mem h

/-! ## The main structural lemma: normal form picks one of the rotations -/

lemma normalForm_mem_rotations (s : PitchClassSet) (h : s.set ≠ []) :
    ∃ t, normalForm s = some t ∧ t ∈ rotationsOf (List.insertionSort pcLe s.set) := by
  have hsne : List.insertionSort pcLe s.set ≠ [] := by
    intro he
    have hp := List.perm_insertionSort pcLe s.set
    rw [he] at hp
    exact h hp.symm.eq_nil
  have hrotne : ∀ x ∈ rotationsOf (List.insertionSort pcLe s.set), x.set ≠ [] := by
    intro x hx
    obtain ⟨i, _, rfl⟩ := List.mem_map.1 hx
    exact rotateRight_ne_nil hsne i
  obtain ⟨is, his, hmap⟩ := internalsOf_of_ne_nil _ hrotne
  have hisne : is ≠ [] := by
    intro he
    apply hsne
    apply List.eq_nil_of_length_eq_zero
    rw [← length_rotationsOf (List.insertionSort pcLe s.set), ← hmap, he]
    rfl
  obtain ⟨m, hm⟩ : ∃ m, listMin (is.map Internal.total_span) = some m := by
    match is, hisne with
    | i :: r, _ => exact ⟨_, rfl⟩
  obtain ⟨r0, hr0mem, hr0span⟩ := List.mem_map.1 (listMin_mem hm)
  have htiedne : is.filter (fun r => r.total_span == m) ≠ [] := by
    apply List.ne_nil_of_length_pos
    apply List.length_pos.2
    intro he
    have : r0 ∈ is.filter (fun r => r.total_span == m) :=
      List.mem_filter.2 ⟨hr0mem, by simp [hr0span]⟩
    rw [he] at this
    exact absurd this (List.not_mem_nil r0)
  obtain ⟨best, hbest, hbestmem⟩ := find_normal_form_mem htiedne
  refine ⟨best.set, ?_, ?_⟩
  · unfold normalForm nfSorted rotationInternals
    rw [his]
    simp only [hm, hbest]
  · rw [← hmap]
    exact List.mem_map_of_mem Internal.set (List.mem_of_mem_filter hbestmem)

lemma normalForm_perm (s : PitchClassSet) (h : s.set ≠ []) :
    ∃ t, normalForm s = some t ∧ t.set.Perm s.set := by
  obtain ⟨t, ht, hmem⟩ := normalForm_mem_rotations s h
  exact ⟨t, ht, (mem_rotationsOf_perm hmem).trans (List.perm_insertionSort pcLe s.set)⟩

lemma insertionSort_eq_of_perm {a b : List PitchClass} (h : a.Perm b) :
    List.insertionSort pcLe a = List.insertionSort pcLe b :=
  List.eq_of_perm_of_sorted
    ((List.perm_insertionSort pcLe a).trans
      (h.trans (List.perm_insertionSort pcLe b).symm))
    (List.sorted_insertionSort pcLe a) (List.sorted_insertionSort pcLe b)

lemma normalForm_nil : normalForm ⟨[]⟩ = none := rfl

/-! ## Claims -/

/-- C1, counterexample.  The claim says the result of `normal_form` is one of
the cyclic rotations of the input sorted ascending *by pitch-integer value*.
The code instead sorts by the derived enum `Ord` (declaration order), which
differs on non-canonical spellings: on `{Css, Dff, Ds}` (pitch integers
2, 0, 3) the code returns `[Css, Dff, Ds]`, which is not a rotation of the
value-ascending ordering `[Dff, Css, Ds]`. -/
theorem C1_counterexample :
    normalForm ⟨[PitchClass.Css, PitchClass.Dff, PitchClass.Ds]⟩ =
        some ⟨[PitchClass.Css, PitchClass.Dff, PitchClass.Ds]⟩ ∧
      (⟨[PitchClass.Css, PitchClass.Dff, PitchClass.Ds]⟩ : PitchClassSet) ∉
        rotationsOf (valueSorted [PitchClass.Css, PitchClass.Dff, PitchClass.Ds]) := by
  decide

/-- C1, amended: for every non-empty input set, `normal_form` returns one of
the cyclic rotations of the input sorted ascending by the `PitchClass`
declaration order (which coincides with pitch-integer order on the 12
canonical spellings), and exactly `n` candidate rotations (one per element,
including the identity rotation) are generated for a set of size `n`. -/
theorem C1_normal_form_rotation_of_sorted (s : PitchClassSet) (h : s.set ≠ []) :
    (∃ t, normalForm s = some t ∧
      t ∈ rotationsOf (List.insertionSort pcLe s.set)) ∧
    (rotationsOf (List.insertionSort pcLe s.set)).length = s.set.length := by
  refine ⟨normalForm_mem_rotations s h, ?_⟩
  rw [length_rotationsOf]
  exact (List.perm_insertionSort pcLe s.set).length_eq

/-- C1, witness for the amended theorem at the concrete input `{C, D}`. -/
theorem C1_witness :
    ((⟨[PitchClass.C, PitchClass.D]⟩ : PitchClassSet).set ≠ []) ∧
    ((∃ t, normalForm ⟨[PitchClass.C, PitchClass.D]⟩ = some t ∧
        t ∈ rotationsOf (List.insertionSort pcLe [PitchClass.C, PitchClass.D])) ∧
      (rotationsOf (List.insertionSort pcLe
        [PitchClass.C, PitchClass.D])).length = 2) :=
  ⟨by decide,
    C1_normal_form_rotation_of_sorted ⟨[PitchClass.C, PitchClass.D]⟩ (by decide)⟩

/-- C4: the claim (and the spec) require `normal_form` on the empty set not
to panic and to return the set unchanged.  The code panics: with an empty
input the rotation list is empty and `rotations.iter().map(..).min().unwrap()`
unwraps `None` (modelled by `none` here).  One-element sets do behave as the
claim says (shown for two representatives). -/
theorem C4_empty_normal_form_panics :
    normalForm ⟨([] : List PitchClass)⟩ = none ∧
    normalForm ⟨[PitchClass.C]⟩ = some ⟨[PitchClass.C]⟩ ∧
    normalForm ⟨[PitchClass.Bs]⟩ = some ⟨[PitchClass.Bs]⟩ := by
  decide

/-- C7: normal form is idempotent.  The composition is expressed with
`Option.bind` since `normal_form` is embedded as an `Option`-returning
function (`none` models a panic; panics propagate through composition). -/
theorem C7_normal_form_idempotent (s : PitchClassSet) :
    (normalForm s).bind normalForm = normalForm s := by
  cases hnf : normalForm s with
  | none => rfl
  | some t =>
    have hne : s.set ≠ [] := by
      intro he
      obtain ⟨l⟩ := s
      have hl : l = [] := he
      subst hl
      rw [normalForm_nil] at hnf
      exact Option.noConfusion hnf
    obtain ⟨t', ht', hmem⟩ := normalForm_mem_rotations s hne
    rw [hnf] at ht'
    have htt : t = t' := Option.some.inj ht'
    subst htt
    show normalForm t = some t
    have hperm : t.set.Perm s.set :=
      (mem_rotationsOf_perm hmem).trans (List.perm_insertionSort pcLe s.set)
    calc normalForm t
        = nfSorted (List.insertionSort pcLe t.set) := rfl
      _ = nfSorted (List.insertionSort pcLe s.set) := by
          rw [insertionSort_eq_of_perm hperm]
      _ = some t := hnf

/-- C10: for every non-empty input, `normal_form` returns a permutation of
exactly the input's `PitchClass` values (it never rewrites a spelling): the
output list of enum variants is a permutation of the input list. -/
theorem C10_normal_form_permutation (s : PitchClassSet) (h : s.set ≠ []) :
    ∃ t, normalForm s = some t ∧ t.set.Perm s.set :=
  normalForm_perm s h

/-- C10, witness at the concrete input `{Bs, Cf}` (non-canonical spellings
are preserved by `normal_form`). -/
theorem C10_witness :
    ((⟨[PitchClass.Bs, PitchClass.Cf]⟩ : PitchClassSet).set ≠ []) ∧
    ∃ t, normalForm ⟨[PitchClass.Bs, PitchClass.Cf]⟩ = some t ∧
      t.set.Perm [PitchClass.Bs, PitchClass.Cf] :=
  ⟨by decide, C10_normal_form_permutation ⟨[PitchClass.Bs, PitchClass.Cf]⟩ (by decide)⟩

lemma transpose_zero_fix (pc : PitchClass) (h : pc ∈ canonicalSpellings) :
    fromU32 ((toU32 pc + 0) % 4294967296 % 12) = pc := by
  simp only [canonicalSpellings, List.mem_cons, List.not_mem_nil, or_false] at h
  rcases h with rfl|rfl|rfl|rfl|rfl|rfl|rfl|rfl|rfl|rfl|rfl|rfl <;> rfl

lemma map_transpose_zero (l : List PitchClass)
    (h : ∀ pc ∈ l, pc ∈ canonicalSpellings) :
    (l.map fun pc => fromU32 ((toU32 pc + 0) % 4294967296 % 12)) = l := by
  induction l with
  | nil => rfl
  | cons a r ih =>
    simp only [List.map_cons]
    rw [transpose_zero_fix a (h a (List.mem_cons_self a r)),
      ih (fun pc hpc => h pc (List.mem_cons_of_mem a hpc))]

/-- C5, counterexample.  Transposition by 0 is not the identity on sets that
use non-canonical spellings: `transpose({Cf}, 0) = {B} ≠ {Cf}`, because every
output element is rebuilt through `From<u32>`, which picks the canonical
spelling of the residue. -/
theorem C5_counterexample :
    transposition_by ⟨[PitchClass.Cf]⟩ 0 ≠ ⟨[PitchClass.Cf]⟩ := by decide

/-- C5, amended: for every set whose elements all use the 12 canonical
spellings produced by `From<u32>`, transposition by level 0 is the identity,
element for element. -/
theorem C5_transpose_zero (s : PitchClassSet)
    (h : ∀ pc ∈ s.set, pc ∈ canonicalSpellings) :
    transposition_by s 0 = s := by
  obtain ⟨l⟩ := s
  simp only [transposition_by]
  rw [map_transpose_zero l h]

/-- C5, witness for the amended theorem at the concrete input `{F, G}`. -/
theorem C5_witness :
    (∀ pc ∈ (⟨[PitchClass.F, PitchClass.G]⟩ : PitchClassSet).set,
      pc ∈ canonicalSpellings) ∧
    transposition_by ⟨[PitchClass.F, PitchClass.G]⟩ 0 =
      ⟨[PitchClass.F, PitchClass.G]⟩ :=
  ⟨by decide, C5_transpose_zero ⟨[PitchClass.F, PitchClass.G]⟩ (by decide)⟩

/-- C9: every element of a transposed or inverted set is one of the 12
canonical spellings, for every input set (canonical or not) and every level:
both transforms rebuild each element via `From<u32>`. -/
theorem C9_outputs_canonical (s : PitchClassSet) (level : Nat) (pc : PitchClass)
    (h : pc ∈ (transposition_by s level).set ∨ pc ∈ (inversion_by s level).set) :
    pc ∈ canonicalSpellings := by
  rcases h with h | h
  · simp only [transposition_by] at h
    obtain ⟨x, _, rfl⟩ := List.mem_map.1 h
    exact fromU32_mem_canonical _
  · simp only [inversion_by, List.mem_reverse] at h
    obtain ⟨x, _, rfl⟩ := List.mem_map.1 h
    exact fromU32_mem_canonical _

/-- C9, witness at the concrete input `{Cf}`, level 0: the transposed set is
`{B}` and `B` is canonical. -/
theorem C9_witness :
    (PitchClass.B ∈ (transposition_by ⟨[PitchClass.Cf]⟩ 0).set ∨
      PitchClass.B ∈ (inversion_by ⟨[PitchClass.Cf]⟩ 0).set) ∧
    PitchClass.B ∈ canonicalSpellings :=
  ⟨Or.inl (by decide),
    C9_outputs_canonical ⟨[PitchClass.Cf]⟩ 0 PitchClass.B (Or.inl (by decide))⟩

lemma wrapI32_eq_self {z : Int} (h1 : -2147483648 ≤ z) (h2 : z < 2147483648) :
    wrapI32 z = z := by
  unfold wrapI32
  omega

lemma double_inversion_value (e : Int) (he0 : 0 ≤ e) (he1 : e < 2147483648)
    (pc : PitchClass) :
    toU32 (fromU32 ((wrapI32 (e - (toU32 (fromU32
      ((wrapI32 (e - (toU32 pc : Int)) % 12).toNat)) : Int)) % 12).toNat)) =
    toU32 pc := by
  have h1 : toU32 pc < 12 := toU32_lt pc
  have hinner : wrapI32 (e - (toU32 pc : Int)) = e - (toU32 pc : Int) :=
    wrapI32_eq_self (by omega) (by omega)
  rw [hinner]
  have hy : toU32 (fromU32 (((e - (toU32 pc : Int)) % 12).toNat)) < 12 := by
    rw [toU32_fromU32]
    omega
  have houter : wrapI32 (e -
      (toU32 (fromU32 (((e - (toU32 pc : Int)) % 12).toNat)) : Int)) =
      e - (toU32 (fromU32 (((e - (toU32 pc : Int)) % 12).toNat)) : Int) :=
    wrapI32_eq_self (by omega) (by omega)
  rw [houter]
  rw [toU32_fromU32, toU32_fromU32]
  have hb0 : (0:Int) ≤ (e - (toU32 pc : Int)) % 12 :=
    Int.emod_nonneg _ (by norm_num)
  have hb12 : (e - (toU32 pc : Int)) % 12 < 12 :=
    Int.emod_lt_of_pos _ (by norm_num)
  have hbn : (((e - (toU32 pc : Int)) % 12).toNat % 12 : Nat) =
      ((e - (toU32 pc : Int)) % 12).toNat := by omega
  rw [hbn, Int.toNat_of_nonneg hb0]
  have key : (e - (e - (toU32 pc : Int)) % 12) % 12 = (toU32 pc : Int) := by
    conv_lhs => rw [Int.sub_emod]
    rw [Int.emod_emod_of_dvd _ dvd_rfl, ← Int.sub_emod]
    simp only [sub_sub_cancel]
    exact Int.emod_eq_of_lt (Int.natCast_nonneg _) (by exact_mod_cast h1)
  rw [key]
  omega

/-- C8, counterexample.  Double inversion does not restore the multiset of
`PitchClass` values when the input uses a non-canonical spelling:
`invert(invert({Cf}, 0), 0) = {B}`, and `{B}` is not a permutation of
`{Cf}` at the enum level.  Moreover, at level 2^31 even the residues are
not restored: the `i32` subtraction `-2^31 - 4` overflows on the second
pass (release wrap), so `invert(invert({C}, 2^31), 2^31) = {E}` with
residue 4, not 0. -/
theorem C8_counterexample :
    (¬ (inversion_by (inversion_by ⟨[PitchClass.Cf]⟩ 0) 0).set.Perm
        [PitchClass.Cf]) ∧
    (inversion_by (inversion_by ⟨[PitchClass.C]⟩ 2147483648)
        2147483648).set.map toU32 ≠
      ([PitchClass.C] : List PitchClass).map toU32 := by decide

/-- C8, amended: for every set and every level below 2^31 (where neither the
`level as i32` cast nor the `i32` subtraction wraps), double inversion
restores the multiset of pitch-class residues — indeed it restores the
sequence of integer values position by position (the spellings are rewritten
to the canonical ones, so the enum-level multiset may differ).  At levels at
or above 2^31 the internal `i32` arithmetic wraps and the residues are not
restored in general. -/
theorem C8_double_inversion (s : PitchClassSet) (level : Nat)
    (hlev : level < 2147483648) :
    (inversion_by (inversion_by s level) level).set.map toU32 =
      s.set.map toU32 := by
  simp only [inversion_by, List.map_reverse, List.reverse_reverse, List.map_map]
  apply List.map_congr_left
  intro pc _
  simp only [Function.comp]
  have he : toI32 level = (level : Int) := by
    unfold toI32
    rw [if_pos hlev]
  rw [he]
  exact double_inversion_value (level : Int) (Int.natCast_nonneg level)
    (by exact_mod_cast hlev) pc

/-- C8, witness for the amended theorem at the concrete input `{G, Af, B}`,
level 0 (where `i0` is not the identity but restores the residues). -/
theorem C8_witness :
    (0 : Nat) < 2147483648 ∧
    (inversion_by (inversion_by ⟨[PitchClass.G, PitchClass.Af, PitchClass.B]⟩ 0)
        0).set.map toU32 =
      (⟨[PitchClass.G, PitchClass.Af, PitchClass.B]⟩ : PitchClassSet).set.map toU32 :=
  ⟨by decide,
    C8_double_inversion ⟨[PitchClass.G, PitchClass.Af, PitchClass.B]⟩ 0 (by decide)⟩

lemma scanAux_length : ∀ (acc : Nat) (l : List Nat), (scanAux acc l).length = l.length
  | _, [] => rfl
  | acc, x :: rest => by
    simp only [scanAux, List.length_cons, scanAux_length (acc + x) rest]

lemma intervals_length : ∀ l : List PitchClass, (intervals l).length = l.length - 1
  | [] => rfl
  | [_] => rfl
  | _ :: b :: r => by
    simp only [intervals, List.length_cons, intervals_length (b :: r)]
    omega

lemma minVec_length_reverse (a : List Nat) : (minVec a a.reverse).length = a.length := by
  unfold minVec
  split_ifs
  · exact List.length_reverse a
  · rfl

/-- C3, counterexample.  The claim quantifies over every pitch-class set,
but `prime_form` on the empty set panics (it calls `normal_form`, which
unwraps the minimum of an empty rotation list), so it does not return the
claimed integer sequence there. -/
theorem C3_counterexample :
    ¬ ∃ l, primeForm ⟨([] : List PitchClass)⟩ = some l := by
  rintro ⟨l, hl⟩
  have hnone : primeForm ⟨([] : List PitchClass)⟩ = none := rfl
  rw [hnone] at hl
  exact Option.noConfusion hl

/-- C3, amended: for every non-empty set, `prime_form` is the running
cumulative sum of a leading 0 prepended to whichever of the normal form's
interval sequence and its reverse is lexicographically smaller
(`std::cmp::min` on vectors); consequently it begins with 0 and has length
equal to the size of the input set. -/
theorem C3_prime_form (s : PitchClassSet) (h : s.set ≠ []) :
    ∃ t l, normalForm s = some t ∧ primeForm s = some l ∧
      l = create_interval_scan (0 ::
        minVec (intervals t.set) (intervals t.set).reverse) ∧
      l.head? = some 0 ∧ l.length = s.set.length := by
  obtain ⟨t, ht, hperm⟩ := normalForm_perm s h
  refine ⟨t, _, ht, ?_, rfl, ?_, ?_⟩
  · unfold primeForm
    rw [ht]
  · rfl
  · have h1 : (intervals t.set).length = t.set.length - 1 := intervals_length t.set
    have h2 : t.set.length = s.set.length := hperm.length_eq
    have h3 : s.set.length ≠ 0 := fun he => h (List.eq_nil_of_length_eq_zero he)
    simp only [create_interval_scan, scanAux_length, List.length_cons,
      minVec_length_reverse, h1, h2]
    omega

/-- C3, witness for the amended theorem at the concrete input `{F, Fs, A}`
(whose prime form is `[0, 1, 4]`). -/
theorem C3_witness :
    ((⟨[PitchClass.F, PitchClass.Fs, PitchClass.A]⟩ : PitchClassSet).set ≠ []) ∧
    ∃ t l, normalForm ⟨[PitchClass.F, PitchClass.Fs, PitchClass.A]⟩ = some t ∧
      primeForm ⟨[PitchClass.F, PitchClass.Fs, PitchClass.A]⟩ = some l ∧
      l = create_interval_scan (0 ::
        minVec (intervals t.set) (intervals t.set).reverse) ∧
      l.head? = some 0 ∧ l.length = 3 :=
  ⟨by decide, C3_prime_form ⟨[PitchClass.F, PitchClass.Fs, PitchClass.A]⟩ (by decide)⟩

lemma reverse_map_eq_range_map (f : PitchClass → PitchClass) (l : List PitchClass) :
    (l.map f).reverse =
      (List.range l.length).map fun i => f (l.getD (l.length - 1 - i) PitchClass.C) := by
  apply List.ext_getElem
  · simp
  · intro i h1 h2
    have hlen : i < l.length := by simpa using h1
    have hidx : l.length - 1 - i < l.length := by omega
    rw [List.getElem_reverse]
    simp only [List.length_map]
    rw [List.getElem_map, List.getElem_map, List.getElem_range,
      List.getD_eq_getElem l PitchClass.C hidx]

/-- C6, counterexample.  The claim quantifies over every integer level, but
for levels at or above 2^31 the internal `level as i32` cast wraps: at level
2^31 on `{C}` the code computes `(-2^31 - 0).rem_euclid(12) = 4` and returns
`{E}`, while the claimed formula `(2^31 - 0) mod 12 = 8` gives `{Af}`. -/
theorem C6_counterexample :
    inversion_by ⟨[PitchClass.C]⟩ 2147483648 ≠
      invSpec ⟨[PitchClass.C]⟩ 2147483648 := by decide

/-- C6, amended: for every set and every level below 2^31 (where the
`u32 → i32` cast preserves the value), `invert` agrees with the claimed
description: same length, element at output position `i` is the pitch class
of `(level - x) mod 12` (floored modulo) where `x` is the integer of the
input element at mirrored position `len - 1 - i`; in particular
`invert({C, D, F}, 4) = {B, D, E}`. -/
theorem C6_inversion :
    (∀ (s : PitchClassSet) (level : Nat), level < 2147483648 →
      inversion_by s level = invSpec s level) ∧
    inversion_by ⟨[PitchClass.C, PitchClass.D, PitchClass.F]⟩ 4 =
      ⟨[PitchClass.B, PitchClass.D, PitchClass.E]⟩ := by
  refine ⟨?_, by decide⟩
  intro s level hlev
  have he : toI32 level = (level : Int) := by
    unfold toI32
    rw [if_pos hlev]
  unfold inversion_by invSpec
  rw [he]
  congr 1
  have hmap : (s.set.map fun pc =>
      fromU32 ((wrapI32 ((level : Int) - (toU32 pc : Int)) % 12).toNat)) =
      s.set.map fun pc =>
        fromU32 ((((level : Int) - (toU32 pc : Int)) % 12).toNat) := by
    apply List.map_congr_left
    intro pc _
    have h1 : toU32 pc < 12 := toU32_lt pc
    rw [wrapI32_eq_self (by omega) (by omega)]
  rw [hmap]
  exact reverse_map_eq_range_map _ s.set

/-- C6, witness for the amended theorem at the concrete input
`{Cs, Ef, F, G}`, level 5. -/
theorem C6_witness :
    (5 : Nat) < 2147483648 ∧
    inversion_by ⟨[PitchClass.Cs, PitchClass.Ef, PitchClass.F, PitchClass.G]⟩ 5 =
      invSpec ⟨[PitchClass.Cs, PitchClass.Ef, PitchClass.F, PitchClass.G]⟩ 5 :=
  ⟨by decide,
    C6_inversion.1 ⟨[PitchClass.Cs, PitchClass.Ef, PitchClass.F, PitchClass.G]⟩ 5
      (by decide)⟩

lemma all_interval_possibilities_eq : ∀ L : List Internal,
    all_interval_possibilities L = claimTriples L
  | [] => rfl
  | c :: r => by
    rw [all_interval_possibilities, all_interval_possibilities_eq r]
    rfl

/-- C2: whenever more than one rotation attains the minimal total span,
`normal_form` returns the candidate obtained by building, for each tied
candidate, the cumulative interval scans of its forward and reversed
interval sequences tagged with an is-reversed flag, sorting all resulting
(scan, flag, candidate) triples lexicographically ascending, and taking the
candidate of the first triple; in particular
`normal_form({F, Af, A, Cs}) = {Cs, F, Af, A}` and
`normal_form({E, Af, A, B, C}) = {Af, A, B, C, E}`. -/
theorem C2_tie_break :
    (∀ (s : PitchClassSet) (rots : List Internal) (m : Nat),
      rotationInternals (List.insertionSort pcLe s.set) = some rots →
      listMin (rots.map Internal.total_span) = some m →
      1 < (rots.filter fun r => r.total_span == m).length →
      normalForm s =
        (claimSelect (rots.filter fun r => r.total_span == m)).map Internal.set) ∧
    normalForm ⟨[PitchClass.F, PitchClass.Af, PitchClass.A, PitchClass.Cs]⟩ =
      some ⟨[PitchClass.Cs, PitchClass.F, PitchClass.Af, PitchClass.A]⟩ ∧
    normalForm ⟨[PitchClass.E, PitchClass.Af, PitchClass.A,
        PitchClass.B, PitchClass.C]⟩ =
      some ⟨[PitchClass.Af, PitchClass.A, PitchClass.B,
        PitchClass.C, PitchClass.E]⟩ := by
  refine ⟨?_, by decide, by decide⟩
  intro s rots m hrots hmin hlen
  unfold normalForm nfSorted
  simp only [hrots, hmin]
  have hfnf : find_normal_form (rots.filter fun r => r.total_span == m) =
      claimSelect (rots.filter fun r => r.total_span == m) := by
    unfold find_normal_form
    rw [if_neg (by omega)]
    unfold find_best_packed_candidate claimSelect
    rw [all_interval_possibilities_eq]
    cases (List.insertionSort tripleLe
        (claimTriples (rots.filter fun r => r.total_span == m))).head? with
    | none => rfl
    | some t => rfl
  rw [hfnf]
  cases hcs : claimSelect (rots.filter fun r => r.total_span == m) with
  | none => simp
  | some best => simp

/-- C2, witness for the universally quantified part at the tritone `{C, Fs}`,
whose two rotations tie with span 6. -/
theorem C2_witness :
    rotationInternals (List.insertionSort pcLe
        (⟨[PitchClass.C, PitchClass.Fs]⟩ : PitchClassSet).set) = some tieRots ∧
    listMin (tieRots.map Internal.total_span) = some 6 ∧
    1 < (tieRots.filter fun r => r.total_span == 6).length ∧
    normalForm ⟨[PitchClass.C, PitchClass.Fs]⟩ =
      (claimSelect (tieRots.filter fun r => r.total_span == 6)).map Internal.set :=
  ⟨by decide, by decide, by decide,
    C2_tie_break.1 ⟨[PitchClass.C, PitchClass.Fs]⟩ tieRots 6
      (by decide) (by decide) (by decide)⟩

end Forte
